import Mathlib

/-!
Verification of the computation-graph traversal utilities in
`bindings/python/cntk/graph.py` and the distributed-trainer factory in
`bindings/python/cntk/distributed.py`.

The graph is the duck-typed object graph the Python code walks: a node either
exposes a `root_function` attribute (operator / Function node), or an
`is_output` attribute together with an `owner` back-reference (output-variable
node), or neither (leaf node).  Nodes are identified by natural numbers; the
`Graph` structure supplies the attribute view and the fields
(`inputs`, `outputs`, `name`, `op_name`, `uid`, `shape`) the code reads.
-/

namespace CNTK

/-- Duck-typed attribute shape of a node, mirroring the `hasattr` probes of
`dfs_walk`: `func root_function` models a node with a `root_function`
attribute, `outVar is_output owner` models a node with an `is_output`
attribute (and its `owner` back-reference), `leaf` models a node with
neither attribute. -/
inductive Attrs where
  | func (root_function : Nat)
  | outVar (is_output : Bool) (owner : Nat)
  | leaf
deriving DecidableEq, Repr

/-- The read-only view of the external graph: node identities are naturals
below `size`; the remaining fields are the attributes the Python code reads
from nodes. -/
structure Graph where
  size : Nat
  attrs : Nat → Attrs
  inputs : Nat → List Nat
  outputs : Nat → List Nat
  name : Nat → String
  op_name : Nat → String
  uid : Nat → String
  shape : Nat → String

/-- First output of a function node, as accessed by `node.outputs[0]`. -/
def firstOut (g : Graph) (r : Nat) : Nat := (g.outputs r).headD 0

/-- Traversal state: `accum` and `visited` are the mutable list and set the
Python code threads through `dfs_walk`; `calls` and `order` are ghost traces
(not present in the source) recording, respectively, every argument on which
the visitor was evaluated and every node added to `visited`, in order. -/
structure St where
  accum : List Nat
  visited : Finset Nat
  calls : List Nat
  order : List Nat
deriving DecidableEq

/-- The empty initial state (`accum = []`, `visited = set()`). -/
def initSt : St := ⟨[], ∅, [], []⟩

/-- The tail of `dfs_walk`: `if visitor(node): accum.append(node)`, plus the
ghost `calls` trace recording that the visitor ran on `x`. -/
def record (p : Nat → Bool) (x : Nat) (st : St) : St :=
  { st with calls := st.calls ++ [x],
            accum := if p x then st.accum ++ [x] else st.accum }

/-- `visited.add(node)`, plus the ghost `order` trace of entered nodes. -/
def enter (n : Nat) (st : St) : St :=
  { st with visited := insert n st.visited, order := st.order ++ [n] }

/-- The `for child in node.inputs:` loop of `dfs_walk`, abstracted over the
recursive call `d`. -/
def dfsList (d : Nat → St → Option St) : List Nat → St → Option St
  | [], st => some st
  | c :: cs, st => (d c st).bind (dfsList d cs)

/-- Shallow embedding of `dfs_walk` from `graph.py`.  `fuel` bounds the
recursion depth (the Python recursion has no such bound; `fuel = g.size + 1`
is proven sufficient below, so the embedding agrees with the source on every
well-formed graph).  Branches, in source order: early return when
`node in visited`; `visited.add(node)`; if the node has `root_function`, the
local `node` is rebound to the resolved root and its `inputs` are walked;
elif `is_output` holds, the `owner` is walked; finally
`if visitor(node): accum.append(node)` on the (possibly rebound) `node`. -/
def dfs_walk (g : Graph) (p : Nat → Bool) : Nat → Nat → St → Option St
  | 0, _, _ => none
  | fuel + 1, node, st =>
    if node ∈ st.visited then some st
    else
      let st1 := enter node st
      match g.attrs node with
      | Attrs.func r => (dfsList (dfs_walk g p fuel) (g.inputs r) st1).map (record p r)
      | Attrs.outVar true o => (dfs_walk g p fuel o st1).map (record p node)
      | Attrs.outVar false _ => some (record p node st1)
      | Attrs.leaf => some (record p node st1)

/-- Embedding of `visit` from `graph.py`, keeping the whole final state
(`visit` itself returns only `accum`). -/
def visitFull (g : Graph) (p : Nat → Bool) (start : Nat) : Option St :=
  dfs_walk g p (g.size + 1) start initSt

/-- Embedding of `visit(node, visitor)`: fresh accumulator and visited set,
returns the accumulated nodes. -/
def visit (g : Graph) (p : Nat → Bool) (start : Nat) : Option (List Nat) :=
  (visitFull g p start).map St.accum

/-- Embedding of `find_nodes_by_name(node, node_name)`:
`visit(node, lambda x: x.name == node_name)`. -/
def find_nodes_by_name (g : Graph) (start : Nat) (node_name : String) :
    Option (List Nat) :=
  visit g (fun x => g.name x == node_name) start

/-- Per-node well-formedness: everything the traversal can reach from a node
of this shape stays below `g.size`, and a function node has at least one
output. -/
def nodeWf (g : Graph) (i : Nat) : Bool :=
  match g.attrs i with
  | Attrs.func r =>
      decide (r < g.size) && (g.inputs r).all (fun c => decide (c < g.size)) &&
        !(g.outputs r).isEmpty
  | Attrs.outVar _ o => decide (o < g.size)
  | Attrs.leaf => true

/-- Finite-graph well-formedness: every node below `size` is well formed. -/
def Graph.wf (g : Graph) : Bool := (List.range g.size).all (nodeWf g)

/-- Every function node resolves to itself (`node.root_function is node`).
This is the spec's data model, in which an operator node carries its own
inputs; composite nodes whose root is a different object are excluded. -/
def Graph.selfRooted (g : Graph) : Bool :=
  (List.range g.size).all fun i =>
    match g.attrs i with
    | Attrs.func r => r == i
    | _ => true

/-- One traversal edge, exactly as `dfs_walk` recurses: from a function node
to each input of its resolved root, and from an output variable to its
owner. -/
def gstep (g : Graph) (n m : Nat) : Prop :=
  (∃ r, g.attrs n = Attrs.func r ∧ m ∈ g.inputs r) ∨
    g.attrs n = Attrs.outVar true m

/-- Reachability along traversal edges. -/
def Reach (g : Graph) : Nat → Nat → Prop := Relation.ReflTransGen (gstep g)

/-- The characters of the `", "` separator written between input uids. -/
def commaSep : List Char := [',', ' ']

/-- The `for i in range(len(node.inputs))` loop of `output_function_graph`
restricted to its `model` effect: child uids joined by `", "` (the separator
is written after every child except the last). -/
def joinUids (g : Graph) : List Nat → List Char
  | [] => []
  | [c] => (g.uid c).data
  | c :: c2 :: cs => (g.uid c).data ++ commaSep ++ joinUids g (c2 :: cs)

/-- The piece of `model` appended while one function node is processed:
`op_name + '(' + <uids> + ") -> " + outputs[0].uid` (the trailing `'\n'` is
appended by the caller). -/
def lineOf (g : Graph) (r : Nat) : List Char :=
  (g.op_name r).data ++ ['('] ++ joinUids g (g.inputs r) ++
    (") -> ").data ++ (g.uid (firstOut g r)).data

/-- Shallow embedding of the `while stack:` loop of `output_function_graph`.
The Python stack pops from the end and `extend`s with `node.inputs`, so the
Lean stack keeps its top at the head and pushes `(g.inputs r).reverse`.
Strings are embedded as `List Char`; `model` is the accumulated text.
`trace` is a ghost list recording every popped node that passed the
`if node in visited: continue` check.  Note that, exactly as in the source,
nothing is ever added to `visited`: the membership check is dead code.
`fuel` bounds the number of iterations (the source loop can run forever on a
cyclic graph); `none` means the budget was exhausted. -/
def outLoop (g : Graph) :
    Nat → List Nat → Finset Nat → List Char → List Nat →
      Option (List Char × List Nat)
  | 0, _, _, _, _ => none
  | _ + 1, [], _, model, trace => some (model, trace)
  | fuel + 1, node :: rest, visited, model, trace =>
    if node ∈ visited then outLoop g fuel rest visited model trace
    else
      match g.attrs node with
      | Attrs.func r =>
          outLoop g fuel ((g.inputs r).reverse ++ rest) visited
            (model ++ lineOf g r ++ ['\n']) (trace ++ [node])
      | Attrs.outVar true o =>
          outLoop g fuel (o :: rest) visited model (trace ++ [node])
      | Attrs.outVar false _ =>
          outLoop g fuel rest visited model (trace ++ [node])
      | Attrs.leaf =>
          outLoop g fuel rest visited model (trace ++ [node])

/-- The final `return "\n".join(model.split("\n")[::-1])`. -/
def retString (model : List Char) : List Char :=
  List.intercalate ['\n'] ((model.splitOn '\n').reverse)

/-- Observable events of one `output_function_graph` call: the raised
`ImportError`, each node processed by the traversal loop, each file written
by the rendering backend, the returned string, and exhaustion of the loop
budget. -/
inductive Ev where
  | raiseImportError
  | visitNode (n : Nat)
  | fuelOut
  | writePng (path : String)
  | writeDot (path : String)
  | ret (s : List Char)
deriving DecidableEq

/-- Traversal-and-output phase of `output_function_graph` (everything after
the import check): run the loop, then `write_png` if a PNG path was given,
then `write_raw` if a DOT path was given, then return the reversed text. -/
def outEvents (g : Graph) (start fuel : Nat)
    (dot_file_path png_file_path : Option String) : List Ev :=
  match outLoop g fuel [start] ∅ [] [] with
  | none => [Ev.fuelOut]
  | some (model, trace) =>
      trace.map Ev.visitNode ++
        (match png_file_path with
         | some path => [Ev.writePng path]
         | none => []) ++
        (match dot_file_path with
         | some path => [Ev.writeDot path]
         | none => []) ++
        [Ev.ret (retString model)]

/-- Shallow embedding of `output_function_graph(node, dot_file_path,
png_file_path)` as its event trace.  `dot`/`png` are `path != None`; if
either is set, `import pydot_ng` is attempted first and a missing backend
raises `ImportError` before any traversal or file output happens. -/
def output_function_graph (g : Graph) (start : Nat)
    (dot_file_path png_file_path : Option String) (pydot_available : Bool)
    (fuel : Nat) : List Ev :=
  if dot_file_path.isSome || png_file_path.isSome then
    if pydot_available then outEvents g start fuel dot_file_path png_file_path
    else [Ev.raiseImportError]
  else outEvents g start fuel dot_file_path png_file_path

/-- A record added to the `pydot.Dot` object. -/
inductive DotItem where
  | node (id label : String)
  | edge (src dst : String)
deriving DecidableEq

/-- A raised Python exception. -/
inductive PyErr where
  | nameError (nm : String)
deriving DecidableEq

/-- Label of a variable record: `uid`, a newline, `shape:`, a newline, and
the shape string. -/
def varLabel (g : Graph) (v : Nat) : String :=
  g.uid v ++ "\nshape:\n" ++ g.shape v

/-- Shallow embedding of `build_graph` from `graph.py`.  The function is not
recursive: for every child (and for the owner of an output node) the source
calls `dfs_walk_plot`, a name that is defined nowhere in the module, so the
first such call raises a `NameError` naming `dfs_walk_plot`.
Records added to the dot object before the failing lookup are made, then the
exception propagates (the partially mutated dot object is dropped here, as
its owner loses it to the exception). -/
def build_graph (g : Graph) (p : Nat → Bool) (node : Nat) (st : St)
    (dot : List DotItem) : Except PyErr (St × List DotItem) :=
  if node ∈ st.visited then Except.ok (st, dot)
  else
    let st1 := enter node st
    match g.attrs node with
    | Attrs.func r =>
        match g.inputs r with
        | [] =>
            let cur := g.op_name r ++ " " ++ g.uid r
            Except.ok (record p r st1,
              dot ++ [DotItem.node cur (g.op_name r),
                      DotItem.node (g.uid (firstOut g r)) (varLabel g (firstOut g r)),
                      DotItem.edge cur (g.uid (firstOut g r))])
        | _ :: _ => Except.error (PyErr.nameError "dfs_walk_plot")
    | Attrs.outVar true _ => Except.error (PyErr.nameError "dfs_walk_plot")
    | Attrs.outVar false _ => Except.ok (record p node st1, dot)
    | Attrs.leaf => Except.ok (record p node st1, dot)

/-- Shallow embedding of `png_graph(model, path)`.  Its body unconditionally
calls `dfs_walk_plot(model, lambda x: True, accum, set(), dot_object)`, and
`dfs_walk_plot` is defined nowhere in the module, so every call raises
`NameError` before writing any file. -/
def png_graph (g : Graph) (model : Nat) (path : String) : Except PyErr Unit :=
  Except.error (PyErr.nameError "dfs_walk_plot")

/-- The quantized MPI communicator built by
`cntk_py.quantized_mpicommunicator(True, True, num_quantization_bits)`. -/
structure QuantizedComm where
  zeroThresholdFor1Bit : Bool
  useAsyncAggregation : Bool
  bits : Int
deriving DecidableEq

/-- Result of the native distributed-trainer factory calls, keeping every
argument the Python wrapper forwards. -/
inductive TrainerSpec where
  | quantized (comm : QuantizedComm) (use_async : Bool) (start_count : Int)
  | plain (use_async : Bool) (start_count : Int)
deriving DecidableEq

/-- Shallow embedding of `data_parallel_distributed_trainer` from
`distributed.py`: `num_quantization_bits < 32` selects the quantized factory
with communicator `quantized_mpicommunicator(True, True, bits)`, otherwise
the plain factory with `mpicommunicator()`; both forward
`use_async_buffered_parameter_update` and
`parallelization_start_after_sample_count` unchanged. -/
def data_parallel_distributed_trainer (use_async_buffered_parameter_update : Bool)
    (num_quantization_bits : Int)
    (parallelization_start_after_sample_count : Int) : TrainerSpec :=
  if num_quantization_bits < 32 then
    TrainerSpec.quantized ⟨true, true, num_quantization_bits⟩
      use_async_buffered_parameter_update
      parallelization_start_after_sample_count
  else
    TrainerSpec.plain use_async_buffered_parameter_update
      parallelization_start_after_sample_count

/-- Bool-level acyclicity certificate for one node: `rank` strictly
decreases along every traversal edge out of `n`. -/
def rankOk (g : Graph) (rank : Nat → Nat) (n : Nat) : Bool :=
  match g.attrs n with
  | Attrs.func r => (g.inputs r).all fun c => decide (rank c < rank n)
  | Attrs.outVar true o => decide (rank o < rank n)
  | _ => true

/-- The graph is a DAG, certified by a rank function that strictly decreases
along every traversal edge leaving a node below `size`. -/
def rankedAcyclic (g : Graph) (rank : Nat → Nat) : Bool :=
  (List.range g.size).all (rankOk g rank)

/-- The always-true visitor `lambda x: True`. -/
def pAll : Nat → Bool := fun _ => true

/-- The spec's concrete scenario `Add(MatMul(X, W), B)`: leaves `X = 0`,
`W = 1`, `B = 4`; `MatMul = 2` with inputs `[X, W]` and output `mOut = 3`;
`Add = 5` with inputs `[mOut, B]`. -/
def gAdd : Graph where
  size := 6
  attrs := fun n =>
    match n with
    | 2 => Attrs.func 2
    | 3 => Attrs.outVar true 2
    | 5 => Attrs.func 5
    | _ => Attrs.leaf
  inputs := fun n =>
    match n with
    | 2 => [0, 1]
    | 5 => [3, 4]
    | _ => []
  outputs := fun n =>
    match n with
    | 2 => [3]
    | _ => [n]
  name := fun n =>
    match n with
    | 0 => "X"
    | 1 => "W"
    | 2 => "MatMul"
    | 3 => "mOut"
    | 4 => "B"
    | 5 => "Add"
    | _ => ""
  op_name := fun n =>
    match n with
    | 2 => "MatMul"
    | 5 => "Add"
    | _ => ""
  uid := fun n =>
    match n with
    | 0 => "X0"
    | 1 => "W0"
    | 2 => "MatMul0"
    | 3 => "m0"
    | 4 => "B0"
    | 5 => "Add0"
    | _ => "u"
  shape := fun _ => "(1,)"

/-- A two-node cyclic graph: operator `0` whose single input `1` is its own
output variable (`1` is owned by `0`). -/
def gCyc : Graph where
  size := 2
  attrs := fun n =>
    match n with
    | 0 => Attrs.func 0
    | _ => Attrs.outVar true 0
  inputs := fun n => match n with | 0 => [1] | _ => []
  outputs := fun n => match n with | 0 => [1] | _ => [n]
  name := fun _ => "N"
  op_name := fun _ => "Op"
  uid := fun n => match n with | 0 => "F0" | _ => "v0"
  shape := fun _ => "(1,)"

/-- A composite node `0` whose `root_function` is the distinct primitive
function node `1` (which is its own root and has no inputs). -/
def gComp : Graph where
  size := 2
  attrs := fun n =>
    match n with
    | 0 => Attrs.func 1
    | _ => Attrs.func 1
  inputs := fun _ => []
  outputs := fun n => [n]
  name := fun _ => "C"
  op_name := fun _ => "Op"
  uid := fun n => match n with | 0 => "c0" | _ => "r0"
  shape := fun _ => "(1,)"

/-- The spec's diamond scenario: operator `0` produces output `O = 1`;
operators `P = 2` and `Q = 4` both consume `1` and produce outputs `3` and
`5`; `R = 6` combines `3` and `5`. -/
def gDiamond : Graph where
  size := 7
  attrs := fun n =>
    match n with
    | 0 => Attrs.func 0
    | 1 => Attrs.outVar true 0
    | 2 => Attrs.func 2
    | 3 => Attrs.outVar true 2
    | 4 => Attrs.func 4
    | 5 => Attrs.outVar true 4
    | _ => Attrs.func 6
  inputs := fun n =>
    match n with
    | 2 => [1]
    | 4 => [1]
    | 6 => [3, 5]
    | _ => []
  outputs := fun n =>
    match n with
    | 0 => [1]
    | 2 => [3]
    | 4 => [5]
    | _ => [n]
  name := fun _ => "n"
  op_name := fun n =>
    match n with
    | 0 => "Src"
    | 2 => "P"
    | 4 => "Q"
    | _ => "Combine"
  uid := fun n =>
    match n with
    | 1 => "O"
    | 3 => "p0"
    | 5 => "q0"
    | _ => "f"
  shape := fun _ => "(1,)"

/-- An operator node `0` with one leaf input `1`: the smallest graph on
which `build_graph` reaches its recursive call. -/
def gOneInput : Graph where
  size := 2
  attrs := fun n => match n with | 0 => Attrs.func 0 | _ => Attrs.leaf
  inputs := fun n => match n with | 0 => [1] | _ => []
  outputs := fun n => [n]
  name := fun _ => "x"
  op_name := fun _ => "Plus"
  uid := fun n => match n with | 0 => "P0" | _ => "x0"
  shape := fun _ => "(1,)"

/-! ### Structural lemmas about `dfs_walk` -/

/-- `st2` extends `st`: the visited set only grows and the three lists only
get appended to. -/
def Mono (st st2 : St) : Prop :=
  st.visited ⊆ st2.visited ∧ (∃ a, st2.accum = st.accum ++ a) ∧
    (∃ c, st2.calls = st.calls ++ c) ∧ (∃ o, st2.order = st.order ++ o)

lemma Mono.rfl (st : St) : Mono st st :=
  ⟨Finset.Subset.refl _, ⟨[], by simp⟩, ⟨[], by simp⟩, ⟨[], by simp⟩⟩

lemma Mono.trans {s t u : St} (h1 : Mono s t) (h2 : Mono t u) : Mono s u := by
  obtain ⟨hv1, ⟨a1, ha1⟩, ⟨c1, hc1⟩, ⟨o1, ho1⟩⟩ := h1
  obtain ⟨hv2, ⟨a2, ha2⟩, ⟨c2, hc2⟩, ⟨o2, ho2⟩⟩ := h2
  exact ⟨hv1.trans hv2, ⟨a1 ++ a2, by simp [ha2, ha1]⟩,
    ⟨c1 ++ c2, by simp [hc2, hc1]⟩, ⟨o1 ++ o2, by simp [ho2, ho1]⟩⟩

lemma mono_enter (n : Nat) (st : St) : Mono st (enter n st) :=
  ⟨Finset.subset_insert _ _, ⟨[], by simp [enter]⟩, ⟨[], by simp [enter]⟩,
    ⟨[n], by simp [enter]⟩⟩

lemma mono_record (p : Nat → Bool) (x : Nat) (st : St) : Mono st (record p x st) := by
  refine ⟨Finset.Subset.refl _, ?_, ⟨[x], by simp [record]⟩, ⟨[], by simp [record]⟩⟩
  by_cases hp : p x = true
  · exact ⟨[x], by simp [record, hp]⟩
  · exact ⟨[], by simp [record, hp]⟩

/-- The `for`-loop preserves any per-call extension property. -/
lemma dfsList_mono {d : Nat → St → Option St}
    (hd : ∀ c st st2, d c st = some st2 → Mono st st2) :
    ∀ l st st2, dfsList d l st = some st2 → Mono st st2 := by
  intro l
  induction l with
  | nil => intro st st2 h; cases h; exact Mono.rfl _
  | cons c cs ih =>
      intro st st2 h
      rw [dfsList, Option.bind_eq_some] at h
      obtain ⟨stm, hm, hrest⟩ := h
      exact (hd c st stm hm).trans (ih stm st2 hrest)

lemma dfs_mono (g : Graph) (p : Nat → Bool) :
    ∀ fuel n st st2, dfs_walk g p fuel n st = some st2 → Mono st st2 := by
  intro fuel
  induction fuel with
  | zero => intro n st st2 h; simp [dfs_walk] at h
  | succ fuel ih =>
      intro n st st2 h
      rw [dfs_walk] at h
      by_cases hn : n ∈ st.visited
      · rw [if_pos hn] at h
        cases h
        exact Mono.rfl _
      · rw [if_neg hn] at h
        cases hattr : g.attrs n with
        | func r =>
            rw [hattr] at h
            rw [Option.map_eq_some'] at h
            obtain ⟨st3, h3, rfl⟩ := h
            exact ((mono_enter n st).trans
              (dfsList_mono (fun c s s2 => ih c s s2) _ _ _ h3)).trans
              (mono_record p r st3)
        | outVar b o =>
            cases b with
            | true =>
                rw [hattr] at h
                rw [Option.map_eq_some'] at h
                obtain ⟨st3, h3, rfl⟩ := h
                exact ((mono_enter n st).trans (ih o _ _ h3)).trans
                  (mono_record p n st3)
            | false =>
                rw [hattr] at h
                cases h
                exact (mono_enter n st).trans (mono_record p n _)
        | leaf =>
            rw [hattr] at h
            cases h
            exact (mono_enter n st).trans (mono_record p n _)

/-- A successful call leaves its argument node in the visited set. -/
lemma dfs_enter (g : Graph) (p : Nat → Bool) (fuel n : Nat) (st st2 : St)
    (h : dfs_walk g p fuel n st = some st2) : n ∈ st2.visited := by
  cases fuel with
  | zero => simp [dfs_walk] at h
  | succ fuel =>
      rw [dfs_walk] at h
      by_cases hn : n ∈ st.visited
      · rw [if_pos hn] at h
        cases h
        exact hn
      · rw [if_neg hn] at h
        have hmem : n ∈ (enter n st).visited := by simp [enter]
        cases hattr : g.attrs n with
        | func r =>
            rw [hattr, Option.map_eq_some'] at h
            obtain ⟨st3, h3, rfl⟩ := h
            exact (dfsList_mono (fun c s s2 => dfs_mono g p fuel c s s2) _ _ _ h3).1 hmem
        | outVar b o =>
            cases b with
            | true =>
                rw [hattr, Option.map_eq_some'] at h
                obtain ⟨st3, h3, rfl⟩ := h
                exact (dfs_mono g p fuel o _ _ h3).1 hmem
            | false =>
                rw [hattr] at h
                cases h
                exact hmem
        | leaf =>
            rw [hattr] at h
            cases h
            exact hmem

/-- After the `for`-loop, every child that was iterated over is visited. -/
lemma dfsList_all_entered {d : Nat → St → Option St}
    (hdm : ∀ c st st2, d c st = some st2 → Mono st st2)
    (hde : ∀ c st st2, d c st = some st2 → c ∈ st2.visited) :
    ∀ l st st2, dfsList d l st = some st2 → ∀ c ∈ l, c ∈ st2.visited := by
  intro l
  induction l with
  | nil => intro st st2 h c hc; cases hc
  | cons c0 cs ih =>
      intro st st2 h c hc
      rw [dfsList, Option.bind_eq_some] at h
      obtain ⟨stm, hm, hrest⟩ := h
      rcases List.mem_cons.mp hc with rfl | hc'
      · exact (dfsList_mono hdm _ _ _ hrest).1 (hde c st stm hm)
      · exact ih stm st2 hrest c hc'

/-! ### Well-formedness extraction lemmas -/

lemma wf_at (g : Graph) (hwf : g.wf = true) {i : Nat} (hi : i < g.size) :
    nodeWf g i = true := by
  rw [Graph.wf, List.all_eq_true] at hwf
  exact hwf i (List.mem_range.mpr hi)

lemma wf_func_inputs_lt (g : Graph) (hwf : g.wf = true) {i r : Nat}
    (hi : i < g.size) (hr : g.attrs i = Attrs.func r) :
    ∀ c ∈ g.inputs r, c < g.size := by
  have h := wf_at g hwf hi
  rw [nodeWf, hr] at h
  simp only [Bool.and_eq_true, List.all_eq_true, decide_eq_true_eq] at h
  exact h.1.2

lemma wf_func_root_lt (g : Graph) (hwf : g.wf = true) {i r : Nat}
    (hi : i < g.size) (hr : g.attrs i = Attrs.func r) : r < g.size := by
  have h := wf_at g hwf hi
  rw [nodeWf, hr] at h
  simp only [Bool.and_eq_true, decide_eq_true_eq] at h
  exact h.1.1

lemma wf_out_owner_lt (g : Graph) (hwf : g.wf = true) {i o : Nat} {b : Bool}
    (hi : i < g.size) (hr : g.attrs i = Attrs.outVar b o) : o < g.size := by
  have h := wf_at g hwf hi
  rw [nodeWf, hr] at h
  simpa using h

lemma selfRooted_at (g : Graph) (hsr : g.selfRooted = true) {i r : Nat}
    (hi : i < g.size) (hr : g.attrs i = Attrs.func r) : r = i := by
  rw [Graph.selfRooted, List.all_eq_true] at hsr
  have h := hsr i (List.mem_range.mpr hi)
  rw [hr] at h
  simpa using h

lemma gstep_lt (g : Graph) (hwf : g.wf = true) {i k : Nat}
    (hi : i < g.size) (hs : gstep g i k) : k < g.size := by
  rcases hs with ⟨r, hr, hk⟩ | hout
  · exact wf_func_inputs_lt g hwf hi hr k hk
  · exact wf_out_owner_lt g hwf hi hout

lemma reach_lt (g : Graph) (hwf : g.wf = true) {i k : Nat}
    (hi : i < g.size) (hreach : Reach g i k) : k < g.size := by
  induction hreach with
  | refl => exact hi
  | tail _ hstep ih => exact gstep_lt g hwf ih hstep

lemma rank_lt_of_gstep (g : Graph) (rank : Nat → Nat)
    (hra : rankedAcyclic g rank = true) {i k : Nat}
    (hi : i < g.size) (hs : gstep g i k) : rank k < rank i := by
  rw [rankedAcyclic, List.all_eq_true] at hra
  have h := hra i (List.mem_range.mpr hi)
  rcases hs with ⟨r, hr, hk⟩ | hout
  · rw [rankOk, hr, List.all_eq_true] at h
    simpa using h k hk
  · rw [rankOk, hout] at h
    simpa using h

lemma rank_le_of_reach (g : Graph) (rank : Nat → Nat) (hwf : g.wf = true)
    (hra : rankedAcyclic g rank = true) {i k : Nat}
    (hi : i < g.size) (hreach : Reach g i k) : rank k ≤ rank i := by
  induction hreach with
  | refl => exact Nat.le_refl _
  | tail hr hstep ih =>
      exact Nat.le_trans
        (Nat.le_of_lt (rank_lt_of_gstep g rank hra (reach_lt g hwf hi hr) hstep)) ih

/-! ### Fuel sufficiency -/

/-- A generic invariant-preservation scheme for the `for`-loop. -/
lemma dfsList_inv {d : Nat → St → Option St} {P : St → Prop} {Q : Nat → Prop}
    (hd : ∀ c st st2, Q c → P st → d c st = some st2 → P st2) :
    ∀ l st st2, (∀ c ∈ l, Q c) → P st → dfsList d l st = some st2 → P st2 := by
  intro l
  induction l with
  | nil => intro st st2 _ hP h; cases h; exact hP
  | cons c cs ih =>
      intro st st2 hQ hP h
      rw [dfsList, Option.bind_eq_some] at h
      obtain ⟨stm, hm, hrest⟩ := h
      exact ih stm st2 (fun x hx => hQ x (List.mem_cons_of_mem _ hx))
        (hd c st stm (hQ c (List.mem_cons_self _ _)) hP hm) hrest

/-- The visited set stays inside the node range. -/
lemma dfs_range (g : Graph) (p : Nat → Bool) (hwf : g.wf = true) :
    ∀ fuel n st st2, n < g.size → st.visited ⊆ Finset.range g.size →
      dfs_walk g p fuel n st = some st2 →
      st2.visited ⊆ Finset.range g.size := by
  intro fuel
  induction fuel with
  | zero => intro n st st2 _ _ h; simp [dfs_walk] at h
  | succ fuel ih =>
      intro n st st2 hn hsub h
      rw [dfs_walk] at h
      by_cases hv : n ∈ st.visited
      · rw [if_pos hv] at h; cases h; exact hsub
      · rw [if_neg hv] at h
        have hsub1 : (enter n st).visited ⊆ Finset.range g.size := by
          simp only [enter]
          exact Finset.insert_subset (Finset.mem_range.mpr hn) hsub
        cases hattr : g.attrs n with
        | func r =>
            rw [hattr, Option.map_eq_some'] at h
            obtain ⟨st3, h3, rfl⟩ := h
            have := dfsList_inv
              (P := fun st => st.visited ⊆ Finset.range g.size)
              (Q := fun c => c < g.size)
              (fun c s s2 hc hP hcall => ih c s s2 hc hP hcall)
              (g.inputs r) (enter n st) st3
              (wf_func_inputs_lt g hwf hn hattr) hsub1 h3
            simpa [record] using this
        | outVar b o =>
            cases b with
            | true =>
                rw [hattr, Option.map_eq_some'] at h
                obtain ⟨st3, h3, rfl⟩ := h
                have := ih o _ _ (wf_out_owner_lt g hwf hn hattr) hsub1 h3
                simpa [record] using this
            | false =>
                rw [hattr] at h; cases h
                simpa [record] using hsub1
        | leaf =>
            rw [hattr] at h; cases h
            simpa [record] using hsub1

/-- With fuel exceeding the number of unvisited nodes, `dfs_walk` never runs
out: the embedding is total on well-formed graphs, exactly like the source
recursion. -/
lemma dfs_isSome (g : Graph) (p : Nat → Bool) (hwf : g.wf = true) :
    ∀ fuel n st, n < g.size → st.visited ⊆ Finset.range g.size →
      g.size - st.visited.card < fuel → (dfs_walk g p fuel n st).isSome := by
  intro fuel
  induction fuel with
  | zero => intro n st _ _ hcard; omega
  | succ fuel ih =>
      intro n st hn hsub hcard
      rw [dfs_walk]
      by_cases hv : n ∈ st.visited
      · rw [if_pos hv]; rfl
      · rw [if_neg hv]
        have hcard1 : (enter n st).visited.card = st.visited.card + 1 := by
          simp [enter, Finset.card_insert_of_not_mem hv]
        have hlt : st.visited.card < g.size := by
          have := Finset.card_lt_card (Finset.ssubset_iff_of_subset hsub |>.mpr
            ⟨n, Finset.mem_range.mpr hn, hv⟩)
          simpa using this
        have hsub1 : (enter n st).visited ⊆ Finset.range g.size := by
          simp only [enter]
          exact Finset.insert_subset (Finset.mem_range.mpr hn) hsub
        have hcard1' : g.size - (enter n st).visited.card < fuel := by omega
        cases hattr : g.attrs n with
        | func r =>
            have hlist : ∀ l st', (∀ c ∈ l, c < g.size) →
                st'.visited ⊆ Finset.range g.size →
                g.size - st'.visited.card < fuel →
                (dfsList (dfs_walk g p fuel) l st').isSome := by
              intro l
              induction l with
              | nil => intro st' _ _ _; rfl
              | cons c cs ihl =>
                  intro st' hQ hsub' hcard'
                  rw [dfsList]
                  obtain ⟨stm, hm⟩ := Option.isSome_iff_exists.mp
                    (ih c st' (hQ c (List.mem_cons_self _ _)) hsub' hcard')
                  rw [hm, Option.some_bind]
                  have hsubm := dfs_range g p hwf fuel c st' stm
                    (hQ c (List.mem_cons_self _ _)) hsub' hm
                  have hmono := (dfs_mono g p fuel c st' stm hm).1
                  have hcardm : g.size - stm.visited.card < fuel := by
                    have := Finset.card_le_card hmono
                    omega
                  exact ihl stm (fun x hx => hQ x (List.mem_cons_of_mem _ hx))
                    hsubm hcardm
            dsimp only
            obtain ⟨st3, h3⟩ := Option.isSome_iff_exists.mp
              (hlist (g.inputs r) (enter n st)
                (wf_func_inputs_lt g hwf hn hattr) hsub1 hcard1')
            rw [h3]
            rfl
        | outVar b o =>
            cases b with
            | true =>
                dsimp only
                obtain ⟨st3, h3⟩ := Option.isSome_iff_exists.mp
                  (ih o (enter n st) (wf_out_owner_lt g hwf hn hattr) hsub1 hcard1')
                rw [h3]
                rfl
            | false => dsimp only; rfl
        | leaf => dsimp only; rfl

/-! ### Soundness and closedness of the visited set -/

/-- Every node the `for`-loop adds to the visited set is reachable from one
of the iterated children. -/
lemma dfsList_sound {g : Graph} {d : Nat → St → Option St}
    (hdm : ∀ c st st2, d c st = some st2 → Mono st st2)
    (hd : ∀ c st st2, d c st = some st2 →
      ∀ m ∈ st2.visited, m ∈ st.visited ∨ Reach g c m) :
    ∀ l st st2, dfsList d l st = some st2 →
      ∀ m ∈ st2.visited, m ∈ st.visited ∨ ∃ c ∈ l, Reach g c m := by
  intro l
  induction l with
  | nil => intro st st2 h m hm; cases h; exact Or.inl hm
  | cons c cs ih =>
      intro st st2 h m hm
      rw [dfsList, Option.bind_eq_some] at h
      obtain ⟨stm, hmid, hrest⟩ := h
      rcases ih stm st2 hrest m hm with hold | ⟨c', hc', hr⟩
      · rcases hd c st stm hmid m hold with hold' | hr
        · exact Or.inl hold'
        · exact Or.inr ⟨c, List.mem_cons_self _ _, hr⟩
      · exact Or.inr ⟨c', List.mem_cons_of_mem _ hc', hr⟩

/-- Every node a call adds to the visited set is reachable from the
argument node along traversal edges. -/
lemma dfs_sound (g : Graph) (p : Nat → Bool) :
    ∀ fuel n st st2, dfs_walk g p fuel n st = some st2 →
      ∀ m ∈ st2.visited, m ∈ st.visited ∨ Reach g n m := by
  intro fuel
  induction fuel with
  | zero => intro n st st2 h; simp [dfs_walk] at h
  | succ fuel ih =>
      intro n st st2 h m hm
      rw [dfs_walk] at h
      by_cases hv : n ∈ st.visited
      · rw [if_pos hv] at h; cases h; exact Or.inl hm
      · rw [if_neg hv] at h
        cases hattr : g.attrs n with
        | func r =>
            rw [hattr, Option.map_eq_some'] at h
            obtain ⟨st3, h3, rfl⟩ := h
            have hm3 : m ∈ st3.visited := by simpa [record] using hm
            rcases dfsList_sound (dfs_mono g p fuel) (fun c s s2 => ih c s s2)
                _ _ _ h3 m hm3 with h1 | ⟨c, hc, hr⟩
            · simp only [enter, Finset.mem_insert] at h1
              rcases h1 with rfl | h1
              · exact Or.inr Relation.ReflTransGen.refl
              · exact Or.inl h1
            · exact Or.inr (Relation.ReflTransGen.head (Or.inl ⟨r, hattr, hc⟩) hr)
        | outVar b o =>
            cases b with
            | true =>
                rw [hattr, Option.map_eq_some'] at h
                obtain ⟨st3, h3, rfl⟩ := h
                have hm3 : m ∈ st3.visited := by simpa [record] using hm
                rcases ih o _ _ h3 m hm3 with h1 | hr
                · simp only [enter, Finset.mem_insert] at h1
                  rcases h1 with rfl | h1
                  · exact Or.inr Relation.ReflTransGen.refl
                  · exact Or.inl h1
                · exact Or.inr (Relation.ReflTransGen.head (Or.inr hattr) hr)
            | false =>
                rw [hattr] at h; cases h
                have : m ∈ (enter n st).visited := by simpa [record] using hm
                simp only [enter, Finset.mem_insert] at this
                rcases this with rfl | h1
                · exact Or.inr Relation.ReflTransGen.refl
                · exact Or.inl h1
        | leaf =>
            rw [hattr] at h; cases h
            have : m ∈ (enter n st).visited := by simpa [record] using hm
            simp only [enter, Finset.mem_insert] at this
            rcases this with rfl | h1
            · exact Or.inr Relation.ReflTransGen.refl
            · exact Or.inl h1

/-- After the `for`-loop, the set of nodes it newly visited is closed under
traversal edges (inside the final visited set). -/
lemma dfsList_closed {g : Graph} {d : Nat → St → Option St}
    (hdm : ∀ c st st2, d c st = some st2 → Mono st st2)
    (hdc : ∀ c st st2, d c st = some st2 →
      ∀ m, m ∈ st2.visited → m ∉ st.visited → ∀ k, gstep g m k → k ∈ st2.visited) :
    ∀ l st st2, dfsList d l st = some st2 →
      ∀ m, m ∈ st2.visited → m ∉ st.visited → ∀ k, gstep g m k → k ∈ st2.visited := by
  intro l
  induction l with
  | nil => intro st st2 h m hm hnew k hk; cases h; exact absurd hm hnew
  | cons c cs ih =>
      intro st st2 h m hm hnew k hk
      rw [dfsList, Option.bind_eq_some] at h
      obtain ⟨stm, hmid, hrest⟩ := h
      by_cases hmm : m ∈ stm.visited
      · exact (dfsList_mono hdm _ _ _ hrest).1 (hdc c st stm hmid m hmm hnew k hk)
      · exact ih stm st2 hrest m hm hmm k hk

/-- The set of nodes one call newly visits is closed under traversal edges
inside the final visited set: a newly visited node always got to recurse
into all of its traversal successors. -/
lemma dfs_closed (g : Graph) (p : Nat → Bool) :
    ∀ fuel n st st2, dfs_walk g p fuel n st = some st2 →
      ∀ m, m ∈ st2.visited → m ∉ st.visited → ∀ k, gstep g m k → k ∈ st2.visited := by
  intro fuel
  induction fuel with
  | zero => intro n st st2 h; simp [dfs_walk] at h
  | succ fuel ih =>
      intro n st st2 h m hm hnew k hk
      rw [dfs_walk] at h
      by_cases hv : n ∈ st.visited
      · rw [if_pos hv] at h; cases h; exact absurd hm hnew
      · rw [if_neg hv] at h
        cases hattr : g.attrs n with
        | func r =>
            rw [hattr, Option.map_eq_some'] at h
            obtain ⟨st3, h3, rfl⟩ := h
            have hm3 : m ∈ st3.visited := by simpa [record] using hm
            have hkgoal : k ∈ st3.visited → k ∈ (record p r st3).visited := by
              simp [record]
            by_cases hmn : m = n
            · subst hmn
              rcases hk with ⟨r', hr', hkin⟩ | hout
              · rw [hattr] at hr'
                injection hr' with hr'
                subst hr'
                exact hkgoal (dfsList_all_entered (dfs_mono g p fuel)
                  (fun c s s2 => dfs_enter g p fuel c s s2) _ _ _ h3 k hkin)
              · rw [hattr] at hout
                cases hout
            · have hm1 : m ∉ (enter n st).visited := by
                simp only [enter, Finset.mem_insert]
                push_neg
                exact ⟨hmn, hnew⟩
              exact hkgoal (dfsList_closed (dfs_mono g p fuel)
                (fun c s s2 => ih c s s2) _ _ _ h3 m hm3 hm1 k hk)
        | outVar b o =>
            cases b with
            | true =>
                rw [hattr, Option.map_eq_some'] at h
                obtain ⟨st3, h3, rfl⟩ := h
                have hm3 : m ∈ st3.visited := by simpa [record] using hm
                have hkgoal : k ∈ st3.visited → k ∈ (record p n st3).visited := by
                  simp [record]
                by_cases hmn : m = n
                · subst hmn
                  rcases hk with ⟨r', hr', _⟩ | hout
                  · rw [hattr] at hr'; cases hr'
                  · rw [hattr] at hout
                    injection hout with hb ho
                    subst ho
                    exact hkgoal (dfs_enter g p fuel o _ _ h3)
                · have hm1 : m ∉ (enter n st).visited := by
                    simp only [enter, Finset.mem_insert]
                    push_neg
                    exact ⟨hmn, hnew⟩
                  exact hkgoal (ih o _ _ h3 m hm3 hm1 k hk)
            | false =>
                rw [hattr] at h; cases h
                have hm1 : m ∈ (enter n st).visited := by simpa [record] using hm
                simp only [enter, Finset.mem_insert] at hm1
                rcases hm1 with rfl | hm1
                · rcases hk with ⟨r', hr', _⟩ | hout
                  · rw [hattr] at hr'; cases hr'
                  · rw [hattr] at hout; cases hout
                · exact absurd hm1 hnew
        | leaf =>
            rw [hattr] at h; cases h
            have hm1 : m ∈ (enter n st).visited := by simpa [record] using hm
            simp only [enter, Finset.mem_insert] at hm1
            rcases hm1 with rfl | hm1
            · rcases hk with ⟨r', hr', _⟩ | hout
              · rw [hattr] at hr'; cases hr'
              · rw [hattr] at hout; cases hout
            · exact absurd hm1 hnew

/-! ### The ghost `order` trace lists exactly the visited set -/

/-- Invariant tying the ghost entry trace to the visited set. -/
def OrderInv (st : St) : Prop :=
  (∀ m, m ∈ st.order ↔ m ∈ st.visited) ∧ st.order.Nodup

lemma orderInv_enter {st : St} (h : OrderInv st) {n : Nat}
    (hn : n ∉ st.visited) : OrderInv (enter n st) := by
  obtain ⟨hiff, hnd⟩ := h
  constructor
  · intro m
    simp only [enter, List.mem_append, List.mem_singleton, Finset.mem_insert,
      hiff m]
    tauto
  · simp only [enter]
    rw [List.nodup_append]
    refine ⟨hnd, List.nodup_singleton _, ?_⟩
    intro a ha hb
    rw [List.mem_singleton] at hb
    subst hb
    exact hn ((hiff a).mp ha)

lemma orderInv_record {st : St} (h : OrderInv st) (p : Nat → Bool) (x : Nat) :
    OrderInv (record p x st) := by
  obtain ⟨hiff, hnd⟩ := h
  exact ⟨fun m => by simpa [record] using hiff m, by simpa [record] using hnd⟩

/-- The entered-nodes trace is duplicate-free and lists the visited set. -/
lemma dfs_order (g : Graph) (p : Nat → Bool) :
    ∀ fuel n st st2, dfs_walk g p fuel n st = some st2 → OrderInv st →
      OrderInv st2 := by
  intro fuel
  induction fuel with
  | zero => intro n st st2 h; simp [dfs_walk] at h
  | succ fuel ih =>
      intro n st st2 h hinv
      rw [dfs_walk] at h
      by_cases hv : n ∈ st.visited
      · rw [if_pos hv] at h; cases h; exact hinv
      · rw [if_neg hv] at h
        have hinv1 := orderInv_enter hinv hv
        cases hattr : g.attrs n with
        | func r =>
            rw [hattr, Option.map_eq_some'] at h
            obtain ⟨st3, h3, rfl⟩ := h
            exact orderInv_record
              (dfsList_inv (P := OrderInv) (Q := fun _ => True)
                (fun c s s2 _ hP hcall => ih c s s2 hcall hP)
                _ _ _ (fun _ _ => trivial) hinv1 h3) p r
        | outVar b o =>
            cases b with
            | true =>
                rw [hattr, Option.map_eq_some'] at h
                obtain ⟨st3, h3, rfl⟩ := h
                exact orderInv_record (ih o _ _ h3 hinv1) p n
            | false =>
                rw [hattr] at h; cases h
                exact orderInv_record hinv1 p n
        | leaf =>
            rw [hattr] at h; cases h
            exact orderInv_record hinv1 p n

/-! ### The visitor trace and the accumulator -/

/-- Invariant tying the visitor-call trace and the accumulator to the
visited set: both are duplicate-free lists of visited nodes. -/
def TraceInv (st : St) : Prop :=
  (∀ m ∈ st.calls, m ∈ st.visited) ∧ st.calls.Nodup ∧
    (∀ m ∈ st.accum, m ∈ st.visited) ∧ st.accum.Nodup

/-- Trace characterization produced by one call: relative to `st`, the new
visitor calls (and the new accumulator entries, filtered by the predicate)
are exactly the newly visited nodes. -/
def TraceDelta (p : Nat → Bool) (st st2 : St) : Prop :=
  (∀ m, m ∈ st2.calls ↔ m ∈ st.calls ∨ (m ∈ st2.visited ∧ m ∉ st.visited)) ∧
    (∀ m, m ∈ st2.accum ↔
      m ∈ st.accum ∨ (m ∈ st2.visited ∧ m ∉ st.visited ∧ p m = true))

/-- Closing step shared by all four branches of `dfs_walk`: appending the
just-finished node `n` to the trace (and, if the predicate holds, to the
accumulator) re-establishes `TraceInv` and the delta characterization,
provided the recursion below `n` produced the delta relative to
`enter n st`. -/
lemma record_close (p : Nat → Bool) (st st3 : St) (n : Nat)
    (hv : n ∉ st.visited) (hTI : TraceInv st) (hT3 : TraceInv st3)
    (hmono : Mono (enter n st) st3)
    (hdelta : TraceDelta p (enter n st) st3) :
    TraceInv (record p n st3) ∧ TraceDelta p st (record p n st3) := by
  obtain ⟨hc3, ha3⟩ := hdelta
  have hnvis3 : n ∈ st3.visited := hmono.1 (by simp [enter])
  have hncalls3 : n ∉ st3.calls := by
    intro hmem
    rcases (hc3 n).mp hmem with h1 | h2
    · simp only [enter] at h1
      exact hv (hTI.1 n h1)
    · exact h2.2 (by simp [enter])
  have hnaccum3 : n ∉ st3.accum := by
    intro hmem
    rcases (ha3 n).mp hmem with h1 | h2
    · simp only [enter] at h1
      exact hv (hTI.2.2.1 n h1)
    · exact h2.2.1 (by simp [enter])
  obtain ⟨hcsub, hcnd, hasub, hand⟩ := hT3
  refine ⟨⟨?_, ?_, ?_, ?_⟩, ?_, ?_⟩
  · intro m hm
    simp only [record, List.mem_append, List.mem_singleton] at hm
    simp only [record]
    rcases hm with hm | rfl
    · exact hcsub m hm
    · exact hnvis3
  · simp only [record]
    rw [List.nodup_append]
    exact ⟨hcnd, List.nodup_singleton _,
      fun a ha hb => by rw [List.mem_singleton] at hb; subst hb; exact hncalls3 ha⟩
  · intro m hm
    by_cases hp : p n = true
    · simp only [record, hp, if_pos, List.mem_append, List.mem_singleton] at hm
      simp only [record]
      rcases hm with hm | rfl
      · exact hasub m hm
      · exact hnvis3
    · simp only [record, hp] at hm
      simp only [record]
      exact hasub m (by simpa using hm)
  · by_cases hp : p n = true
    · simp only [record, hp, if_pos]
      rw [List.nodup_append]
      exact ⟨hand, List.nodup_singleton _,
        fun a ha hb => by rw [List.mem_singleton] at hb; subst hb; exact hnaccum3 ha⟩
    · simpa [record, hp] using hand
  · intro m
    have hc := hc3 m
    simp only [enter, Finset.mem_insert] at hc
    simp only [record, List.mem_append, List.mem_singleton]
    by_cases hmn : m = n
    · subst hmn
      constructor
      · intro _
        exact Or.inr ⟨hnvis3, hv⟩
      · intro _
        exact Or.inr rfl
    · constructor
      · intro hm
        rcases hm with hm | rfl
        · rcases hc.mp hm with h1 | h2
          · exact Or.inl h1
          · exact Or.inr ⟨h2.1, fun hmem => h2.2 (Or.inr hmem)⟩
        · exact absurd rfl hmn
      · intro hm
        rcases hm with hm | ⟨hm1, hm2⟩
        · exact Or.inl (hc.mpr (Or.inl hm))
        · exact Or.inl (hc.mpr (Or.inr ⟨hm1, fun hmem => by
            rcases hmem with rfl | hmem
            · exact hmn rfl
            · exact hm2 hmem⟩))
  · intro m
    have ha := ha3 m
    simp only [enter, Finset.mem_insert] at ha
    by_cases hp : p n = true
    · simp only [record, hp, if_pos, List.mem_append, List.mem_singleton]
      by_cases hmn : m = n
      · subst hmn
        constructor
        · intro _
          exact Or.inr ⟨hnvis3, hv, hp⟩
        · intro _
          exact Or.inr rfl
      · constructor
        · intro hm
          rcases hm with hm | rfl
          · rcases ha.mp hm with h1 | h2
            · exact Or.inl h1
            · exact Or.inr ⟨h2.1, fun hmem => h2.2.1 (Or.inr hmem), h2.2.2⟩
          · exact absurd rfl hmn
        · intro hm
          rcases hm with hm | ⟨hm1, hm2, hm3⟩
          · exact Or.inl (ha.mpr (Or.inl hm))
          · exact Or.inl (ha.mpr (Or.inr ⟨hm1, fun hmem => by
              rcases hmem with rfl | hmem
              · exact hmn rfl
              · exact hm2 hmem, hm3⟩))
    · have haccum : (record p n st3).accum = st3.accum := by simp [record, hp]
      rw [haccum]
      simp only [record]
      by_cases hmn : m = n
      · subst hmn
        constructor
        · intro hm
          rcases ha.mp hm with h1 | h2
          · exact absurd (hTI.2.2.1 m h1) hv
          · exact absurd (Or.inl rfl) h2.2.1
        · intro hm
          rcases hm with hm | ⟨_, _, hm3⟩
          · exact absurd (hTI.2.2.1 m hm) hv
          · exact absurd hm3 (by simpa using hp)
      · constructor
        · intro hm
          rcases ha.mp hm with h1 | h2
          · exact Or.inl h1
          · exact Or.inr ⟨h2.1, fun hmem => h2.2.1 (Or.inr hmem), h2.2.2⟩
        · intro hm
          rcases hm with hm | ⟨hm1, hm2, hm3⟩
          · exact ha.mpr (Or.inl hm)
          · exact ha.mpr (Or.inr ⟨hm1, fun hmem => by
              rcases hmem with rfl | hmem
              · exact hmn rfl
              · exact hm2 hmem, hm3⟩)

/-- The `for`-loop version of the trace characterization. -/
lemma dfsList_trace {g : Graph} (p : Nat → Bool) {d : Nat → St → Option St}
    (hdm : ∀ c st st2, d c st = some st2 → Mono st st2)
    (hdr : ∀ c st st2, c < g.size → st.visited ⊆ Finset.range g.size →
      d c st = some st2 → st2.visited ⊆ Finset.range g.size)
    (hd : ∀ c st st2, c < g.size → st.visited ⊆ Finset.range g.size →
      d c st = some st2 → TraceInv st → TraceInv st2 ∧ TraceDelta p st st2) :
    ∀ l st st2, (∀ c ∈ l, c < g.size) →
      st.visited ⊆ Finset.range g.size → dfsList d l st = some st2 →
      TraceInv st → TraceInv st2 ∧ TraceDelta p st st2 := by
  intro l
  induction l with
  | nil =>
      intro st st2 _ _ h hTI
      cases h
      exact ⟨hTI, fun m => by tauto, fun m => by tauto⟩
  | cons c cs ih =>
      intro st st2 hQ hsub h hTI
      rw [dfsList, Option.bind_eq_some] at h
      obtain ⟨stm, hmid, hrest⟩ := h
      have hc := hQ c (List.mem_cons_self _ _)
      obtain ⟨hTm, hcm, ham⟩ := hd c st stm hc hsub hmid hTI
      have hsubm := hdr c st stm hc hsub hmid
      obtain ⟨hT2, hc2, ha2⟩ := ih stm st2
        (fun x hx => hQ x (List.mem_cons_of_mem _ hx)) hsubm hrest hTm
      have h1 : ∀ x, x ∈ st.visited → x ∈ stm.visited := fun x hx => (hdm c st stm hmid).1 hx
      have h2 : ∀ x, x ∈ stm.visited → x ∈ st2.visited :=
        fun x hx => (dfsList_mono hdm cs stm st2 hrest).1 hx
      refine ⟨hT2, fun m => ?_, fun m => ?_⟩
      · have ha := hcm m
        have hb := hc2 m
        have hc1 := h1 m
        have hc2' := h2 m
        tauto
      · have ha := ham m
        have hb := ha2 m
        have hc1 := h1 m
        have hc2' := h2 m
        tauto

/-- On a well-formed, self-rooted graph, a `dfs_walk` call evaluates the
visitor exactly once per newly visited node (recorded in the ghost `calls`
trace) and appends exactly the newly visited nodes satisfying the predicate
to the accumulator. -/
lemma dfs_trace (g : Graph) (p : Nat → Bool) (hwf : g.wf = true)
    (hsr : g.selfRooted = true) :
    ∀ fuel n st st2, n < g.size → st.visited ⊆ Finset.range g.size →
      dfs_walk g p fuel n st = some st2 → TraceInv st →
      TraceInv st2 ∧ TraceDelta p st st2 := by
  intro fuel
  induction fuel with
  | zero => intro n st st2 _ _ h; simp [dfs_walk] at h
  | succ fuel ih =>
      intro n st st2 hn hsub h hTI
      rw [dfs_walk] at h
      by_cases hv : n ∈ st.visited
      · rw [if_pos hv] at h
        cases h
        exact ⟨hTI, fun m => by tauto, fun m => by tauto⟩
      · rw [if_neg hv] at h
        have hsub1 : (enter n st).visited ⊆ Finset.range g.size := by
          simp only [enter]
          exact Finset.insert_subset (Finset.mem_range.mpr hn) hsub
        have hTI1 : TraceInv (enter n st) := by
          obtain ⟨h1, h2, h3, h4⟩ := hTI
          exact ⟨fun m hm => by simp [enter, Finset.mem_insert, h1 m hm],
            by simpa [enter] using h2,
            fun m hm => by simp [enter, Finset.mem_insert, h3 m hm],
            by simpa [enter] using h4⟩
        cases hattr : g.attrs n with
        | func r =>
            have hr : r = n := selfRooted_at g hsr hn hattr
            subst hr
            rw [hattr, Option.map_eq_some'] at h
            obtain ⟨st3, h3, rfl⟩ := h
            obtain ⟨hT3, hdelta3⟩ := dfsList_trace p (dfs_mono g p fuel)
              (fun c s s2 hc hs' hcall => dfs_range g p hwf fuel c s s2 hc hs' hcall)
              (fun c s s2 hc hs' hcall hTI' => ih c s s2 hc hs' hcall hTI')
              (g.inputs r) (enter r st) st3
              (wf_func_inputs_lt g hwf hn hattr) hsub1 h3 hTI1
            exact record_close p st st3 r hv hTI hT3
              (dfsList_mono (dfs_mono g p fuel) _ _ _ h3) hdelta3
        | outVar b o =>
            cases b with
            | true =>
                rw [hattr, Option.map_eq_some'] at h
                obtain ⟨st3, h3, rfl⟩ := h
                obtain ⟨hT3, hdelta3⟩ := ih o (enter n st) st3
                  (wf_out_owner_lt g hwf hn hattr) hsub1 h3 hTI1
                exact record_close p st st3 n hv hTI hT3
                  (dfs_mono g p fuel o _ _ h3) hdelta3
            | false =>
                rw [hattr] at h
                cases h
                exact record_close p st (enter n st) n hv hTI hTI1
                  (Mono.rfl _) ⟨fun m => by tauto, fun m => by tauto⟩
        | leaf =>
            rw [hattr] at h
            cases h
            exact record_close p st (enter n st) n hv hTI hTI1
              (Mono.rfl _) ⟨fun m => by tauto, fun m => by tauto⟩

/-! ### Post-order on acyclic graphs -/

/-- Pending-work invariant for the post-order proof: every visited node is
either already recorded in the accumulator (when the predicate holds) or is
an ancestor of the node currently being processed (its call frame is still
open). -/
def Hprop (g : Graph) (p : Nat → Bool) (st : St) (n : Nat) : Prop :=
  ∀ m ∈ st.visited, (p m = true → m ∈ st.accum) ∨ Reach g m n

lemma traceInv_enter {st : St} (h : TraceInv st) (n : Nat) :
    TraceInv (enter n st) := by
  obtain ⟨h1, h2, h3, h4⟩ := h
  exact ⟨fun m hm => by simp [enter, Finset.mem_insert, h1 m hm],
    by simpa [enter] using h2,
    fun m hm => by simp [enter, Finset.mem_insert, h3 m hm],
    by simpa [enter] using h4⟩

lemma hprop_enter {g : Graph} {p : Nat → Bool} {st : St} {n : Nat}
    (h : Hprop g p st n) : Hprop g p (enter n st) n := by
  intro m hm
  simp only [enter, Finset.mem_insert] at hm
  rcases hm with rfl | hm
  · exact Or.inr Relation.ReflTransGen.refl
  · exact (h m hm).imp (fun hl hp => by simpa [enter] using hl hp) id

lemma hprop_step {g : Graph} {p : Nat → Bool} {st : St} {n c : Nat}
    (h : Hprop g p st n) (hs : gstep g n c) : Hprop g p st c :=
  fun m hm => (h m hm).imp id fun hr => hr.tail hs

lemma mem_accum_of_mono {st st2 : St} (h : Mono st st2) {m : Nat}
    (hm : m ∈ st.accum) : m ∈ st2.accum := by
  obtain ⟨a, ha⟩ := h.2.1
  rw [ha]
  exact List.mem_append_left _ hm

lemma sublist_accum_of_mono {st st2 : St} (h : Mono st st2) {l : List Nat}
    (hl : List.Sublist l st.accum) : List.Sublist l st2.accum := by
  obtain ⟨a, ha⟩ := h.2.1
  rw [ha]
  exact hl.trans (List.sublist_append_left _ _)

lemma hprop_mono {g : Graph} {p : Nat → Bool} {st stm : St} {n : Nat}
    (h : Hprop g p st n) (hmono : Mono st stm)
    (hdelta : TraceDelta p st stm) : Hprop g p stm n := by
  intro m hm
  by_cases hold : m ∈ st.visited
  · exact (h m hold).imp (fun hl hp => mem_accum_of_mono hmono (hl hp)) id
  · exact Or.inl fun hp => (hdelta.2 m).mpr (Or.inr ⟨hm, hold, hp⟩)

/-- Post-order on acyclic graphs: every node newly visited by a call that
is an operator (its own root) and satisfies the predicate appears in the
accumulator strictly after each of its predicate-satisfying inputs. -/
lemma dfs_post (g : Graph) (p : Nat → Bool) (rank : Nat → Nat)
    (hwf : g.wf = true) (hsr : g.selfRooted = true)
    (hra : rankedAcyclic g rank = true) :
    ∀ fuel n st st2, n < g.size → st.visited ⊆ Finset.range g.size →
      TraceInv st → Hprop g p st n →
      dfs_walk g p fuel n st = some st2 →
      ∀ m, m ∈ st2.visited → m ∉ st.visited →
        g.attrs m = Attrs.func m → p m = true →
        ∀ c ∈ g.inputs m, p c = true → List.Sublist [c, m] st2.accum := by
  intro fuel
  induction fuel with
  | zero => intro n st st2 _ _ _ _ h; simp [dfs_walk] at h
  | succ fuel ih =>
      intro n st st2 hn hsub hTI hH h
      rw [dfs_walk] at h
      by_cases hv : n ∈ st.visited
      · rw [if_pos hv] at h
        cases h
        intro m hm hnew
        exact absurd hm hnew
      · rw [if_neg hv] at h
        have hsub1 : (enter n st).visited ⊆ Finset.range g.size := by
          simp only [enter]
          exact Finset.insert_subset (Finset.mem_range.mpr hn) hsub
        have hTI1 : TraceInv (enter n st) := traceInv_enter hTI n
        have hH1 : Hprop g p (enter n st) n := hprop_enter hH
        cases hattr : g.attrs n with
        | func r =>
            have hrn : r = n := selfRooted_at g hsr hn hattr
            subst hrn
            rw [hattr, Option.map_eq_some'] at h
            obtain ⟨st3, h3, rfl⟩ := h
            have hQlt : ∀ c ∈ g.inputs r, c < g.size :=
              wf_func_inputs_lt g hwf hn hattr
            have hQstep : ∀ c ∈ g.inputs r, gstep g r c :=
              fun c hc => Or.inl ⟨r, hattr, hc⟩
            -- the `for`-loop, with the pending-work invariant threaded through
            have hlist : ∀ l st', (∀ c ∈ l, gstep g r c) → (∀ c ∈ l, c < g.size) →
                st'.visited ⊆ Finset.range g.size → TraceInv st' →
                Hprop g p st' r →
                ∀ st3', dfsList (dfs_walk g p fuel) l st' = some st3' →
                (∀ m, m ∈ st3'.visited → m ∉ st'.visited →
                  g.attrs m = Attrs.func m → p m = true →
                  ∀ c ∈ g.inputs m, p c = true → List.Sublist [c, m] st3'.accum) ∧
                Hprop g p st3' r := by
              intro l
              induction l with
              | nil =>
                  intro st' _ _ _ _ hH' st3' hcall
                  cases hcall
                  exact ⟨fun m hm hnew => absurd hm hnew, hH'⟩
              | cons c cs ihl =>
                  intro st' hstep hlt hsub' hTI' hH' st3' hcall
                  rw [dfsList, Option.bind_eq_some] at hcall
                  obtain ⟨stm, hmid, hrest⟩ := hcall
                  have hclt := hlt c (List.mem_cons_self _ _)
                  have hcstep := hstep c (List.mem_cons_self _ _)
                  obtain ⟨hTm, hdeltam⟩ :=
                    dfs_trace g p hwf hsr fuel c st' stm hclt hsub' hmid hTI'
                  have hmonom := dfs_mono g p fuel c st' stm hmid
                  have hsubm := dfs_range g p hwf fuel c st' stm hclt hsub' hmid
                  have hHm : Hprop g p stm r := hprop_mono hH' hmonom hdeltam
                  have hmonorest := dfsList_mono (dfs_mono g p fuel) cs stm st3' hrest
                  obtain ⟨hpost_rest, hHrest⟩ := ihl stm
                    (fun x hx => hstep x (List.mem_cons_of_mem _ hx))
                    (fun x hx => hlt x (List.mem_cons_of_mem _ hx))
                    hsubm hTm hHm st3' hrest
                  refine ⟨?_, hHrest⟩
                  intro m hm hnew hmf hmp c' hc' hc'p
                  by_cases hmm : m ∈ stm.visited
                  · exact sublist_accum_of_mono hmonorest
                      (ih c st' stm hclt hsub' hTI' (hprop_step hH' hcstep) hmid
                        m hmm hnew hmf hmp c' hc' hc'p)
                  · exact hpost_rest m hm hmm hmf hmp c' hc' hc'p
            obtain ⟨hpost3, hH3⟩ := hlist (g.inputs r) (enter r st) hQstep hQlt
              hsub1 hTI1 hH1 st3 h3
            have hmono13 := dfsList_mono (dfs_mono g p fuel) _ _ _ h3
            intro m hm hnew hmf hmp c hc hcp
            have hm3 : m ∈ st3.visited := by simpa [record] using hm
            by_cases hmn : m = r
            · subst hmn
              -- the finishing append of the operator itself
              have hcvis : c ∈ st3.visited :=
                dfsList_all_entered (dfs_mono g p fuel)
                  (fun c' s s2 => dfs_enter g p fuel c' s s2) _ _ _ h3 c hc
              have hcstep : gstep g m c := Or.inl ⟨m, hattr, hc⟩
              have hclt : c < g.size := hQlt c hc
              have hcaccum : c ∈ st3.accum := by
                by_cases hcold : c ∈ (enter m st).visited
                · simp only [enter, Finset.mem_insert] at hcold
                  rcases hcold with rfl | hcold
                  · exact absurd (rank_lt_of_gstep g rank hra hn hcstep)
                      (Nat.lt_irrefl _)
                  · rcases hH c hcold with hl | hr
                    · exact mem_accum_of_mono
                        ((mono_enter m st).trans hmono13) (hl hcp)
                    · have h1 := rank_le_of_reach g rank hwf hra hclt hr
                      have h2 := rank_lt_of_gstep g rank hra hn hcstep
                      omega
                · rcases hH3 c hcvis with hl | hr
                  · exact hl hcp
                  · have h1 := rank_le_of_reach g rank hwf hra hclt hr
                    have h2 := rank_lt_of_gstep g rank hra hn hcstep
                    omega
              have haccum2 : (record p m st3).accum = st3.accum ++ [m] := by
                simp [record, hmp]
              rw [haccum2]
              show List.Sublist ([c] ++ [m]) (st3.accum ++ [m])
              exact List.Sublist.append (List.singleton_sublist.mpr hcaccum)
                (List.Sublist.refl [m])
            · have hnew1 : m ∉ (enter r st).visited := by
                simp only [enter, Finset.mem_insert]
                push_neg
                exact ⟨hmn, hnew⟩
              have hsub3 := hpost3 m hm3 hnew1 hmf hmp c hc hcp
              exact sublist_accum_of_mono (mono_record p r st3) hsub3
        | outVar b o =>
            cases b with
            | true =>
                rw [hattr, Option.map_eq_some'] at h
                obtain ⟨st3, h3, rfl⟩ := h
                intro m hm hnew hmf hmp c hc hcp
                have hm3 : m ∈ st3.visited := by simpa [record] using hm
                by_cases hmn : m = n
                · subst hmn
                  rw [hattr] at hmf
                  cases hmf
                · have hnew1 : m ∉ (enter n st).visited := by
                    simp only [enter, Finset.mem_insert]
                    push_neg
                    exact ⟨hmn, hnew⟩
                  have hostep : gstep g n o := Or.inr hattr
                  have hsub3 := ih o (enter n st) st3
                    (wf_out_owner_lt g hwf hn hattr) hsub1 hTI1
                    (hprop_step hH1 hostep) h3 m hm3 hnew1 hmf hmp c hc hcp
                  exact sublist_accum_of_mono (mono_record p n st3) hsub3
            | false =>
                rw [hattr] at h
                cases h
                intro m hm hnew hmf hmp c hc hcp
                have hm1 : m ∈ (enter n st).visited := by simpa [record] using hm
                simp only [enter, Finset.mem_insert] at hm1
                rcases hm1 with rfl | hm1
                · rw [hattr] at hmf
                  cases hmf
                · exact absurd hm1 hnew
        | leaf =>
            rw [hattr] at h
            cases h
            intro m hm hnew hmf hmp c hc hcp
            have hm1 : m ∈ (enter n st).visited := by simpa [record] using hm
            simp only [enter, Finset.mem_insert] at hm1
            rcases hm1 with rfl | hm1
            · rw [hattr] at hmf
              cases hmf
            · exact absurd hm1 hnew

/-! ### Top-level facts about `visit` -/

lemma initSt_traceInv : TraceInv initSt := by
  refine ⟨?_, ?_, ?_, ?_⟩ <;> simp [initSt]

lemma visitFull_isSome (g : Graph) (p : Nat → Bool) (start : Nat)
    (hwf : g.wf = true) (hs : start < g.size) :
    ∃ st2, visitFull g p start = some st2 := by
  have h := dfs_isSome g p hwf (g.size + 1) start initSt hs
    (by simp [initSt]) (by simp [initSt])
  exact Option.isSome_iff_exists.mp h

/-- The final visited set is exactly the set of reachable nodes. -/
lemma visitFull_visited_iff (g : Graph) (p : Nat → Bool) (start : Nat)
    (st2 : St) (h : visitFull g p start = some st2) :
    ∀ m, m ∈ st2.visited ↔ Reach g start m := by
  have h' : dfs_walk g p (g.size + 1) start initSt = some st2 := h
  intro m
  constructor
  · intro hm
    rcases dfs_sound g p _ start initSt st2 h' m hm with h0 | hr
    · simp [initSt] at h0
    · exact hr
  · intro hr
    induction hr with
    | refl => exact dfs_enter g p _ start initSt st2 h'
    | tail hab hstep ihr =>
        exact dfs_closed g p _ start initSt st2 h' _ ihr (by simp [initSt]) _ hstep

lemma visitFull_order (g : Graph) (p : Nat → Bool) (start : Nat) (st2 : St)
    (h : visitFull g p start = some st2) :
    st2.order.Nodup ∧ ∀ m, m ∈ st2.order ↔ m ∈ st2.visited := by
  have h' : dfs_walk g p (g.size + 1) start initSt = some st2 := h
  have hinv := dfs_order g p _ start initSt st2 h'
    ⟨fun m => by simp [initSt], by simp [initSt]⟩
  exact ⟨hinv.2, hinv.1⟩

lemma visitFull_trace (g : Graph) (p : Nat → Bool) (start : Nat) (st2 : St)
    (hwf : g.wf = true) (hsr : g.selfRooted = true) (hs : start < g.size)
    (h : visitFull g p start = some st2) :
    TraceInv st2 ∧ (∀ m, m ∈ st2.calls ↔ m ∈ st2.visited) ∧
      (∀ m, m ∈ st2.accum ↔ m ∈ st2.visited ∧ p m = true) := by
  have h' : dfs_walk g p (g.size + 1) start initSt = some st2 := h
  obtain ⟨hTI, hc, ha⟩ := dfs_trace g p hwf hsr _ start initSt st2 hs
    (by simp [initSt]) h' initSt_traceInv
  refine ⟨hTI, fun m => ?_, fun m => ?_⟩
  · have := hc m
    simpa [initSt] using this
  · have := ha m
    simpa [initSt] using this

lemma visitFull_postorder (g : Graph) (p : Nat → Bool) (start : Nat)
    (rank : Nat → Nat) (st2 : St) (hwf : g.wf = true)
    (hsr : g.selfRooted = true) (hra : rankedAcyclic g rank = true)
    (hs : start < g.size) (h : visitFull g p start = some st2) :
    ∀ N rN, Reach g start N → g.attrs N = Attrs.func rN → p N = true →
      ∀ c ∈ g.inputs rN, p c = true → List.Sublist [c, N] st2.accum := by
  have h' : dfs_walk g p (g.size + 1) start initSt = some st2 := h
  intro N rN hreach hattr hpN c hc hcp
  have hN : N < g.size := reach_lt g hwf hs hreach
  have hrN : rN = N := selfRooted_at g hsr hN hattr
  rw [hrN] at hattr hc
  have hNvis : N ∈ st2.visited := (visitFull_visited_iff g p start st2 h N).mpr hreach
  exact dfs_post g p rank hwf hsr hra _ start initSt st2 hs (by simp [initSt])
    initSt_traceInv (fun m hm => by simp [initSt] at hm) h' N hNvis
    (by simp [initSt]) hattr hpN c hc hcp

/-! ### Claim theorems about the recursive traversal -/

/-- Claim C3: on every finite well-formed graph, the recursive traversal
terminates and enters each reachable node exactly once, for any predicate:
the ghost entry trace is duplicate-free and lists exactly the reachable
nodes, so its length is the number of distinct reachable nodes.  Diamonds
and cycles are covered: no acyclicity hypothesis is needed. -/
theorem claim_C3_each_reachable_entered_once (g : Graph) (p : Nat → Bool)
    (start : Nat) (hwf : g.wf = true) (hs : start < g.size) :
    ∃ st2, visitFull g p start = some st2 ∧ st2.order.Nodup ∧
      ∀ m, m ∈ st2.order ↔ Reach g start m := by
  obtain ⟨st2, h⟩ := visitFull_isSome g p start hwf hs
  obtain ⟨hnd, hiff⟩ := visitFull_order g p start st2 h
  exact ⟨st2, h, hnd, fun m => (hiff m).trans (visitFull_visited_iff g p start st2 h m)⟩

/-- Witness for C3 on the `Add(MatMul(X, W), B)` graph. -/
theorem claim_C3_witness :
    gAdd.wf = true ∧ 5 < gAdd.size ∧
      (∃ st2, visitFull gAdd pAll 5 = some st2 ∧ st2.order.Nodup ∧
        ∀ m, m ∈ st2.order ↔ Reach gAdd 5 m) :=
  ⟨by decide, by decide,
    claim_C3_each_reachable_entered_once gAdd pAll 5 (by decide) (by decide)⟩

/-- Claim C4, amended: on graphs that are acyclic (certified by a rank
function decreasing along traversal edges) and self-rooted (each operator is
its own `root_function`, as in the spec's data model), every reachable
operator node `N` that satisfies the predicate appears in the result
sequence strictly after each of its predicate-satisfying inputs; on cyclic
graphs this fails (see the counterexample). -/
theorem claim_C4_amended_postorder (g : Graph) (p : Nat → Bool)
    (start : Nat) (rank : Nat → Nat) (hwf : g.wf = true)
    (hsr : g.selfRooted = true) (hra : rankedAcyclic g rank = true)
    (hs : start < g.size) :
    ∃ st2, visitFull g p start = some st2 ∧
      ∀ N rN, Reach g start N → g.attrs N = Attrs.func rN → p N = true →
        ∀ c ∈ g.inputs rN, p c = true → List.Sublist [c, N] st2.accum := by
  obtain ⟨st2, h⟩ := visitFull_isSome g p start hwf hs
  exact ⟨st2, h, visitFull_postorder g p start rank st2 hwf hsr hra hs h⟩

/-- Witness for the amended C4 on the `Add(MatMul(X, W), B)` graph, with the
identity rank function. -/
theorem claim_C4_amended_witness :
    gAdd.wf = true ∧ gAdd.selfRooted = true ∧
      rankedAcyclic gAdd (fun n => n) = true ∧ 5 < gAdd.size ∧
      (∃ st2, visitFull gAdd pAll 5 = some st2 ∧
        ∀ N rN, Reach gAdd 5 N → gAdd.attrs N = Attrs.func rN → pAll N = true →
          ∀ c ∈ gAdd.inputs rN, pAll c = true → List.Sublist [c, N] st2.accum) :=
  ⟨by decide, by decide, by decide, by decide,
    claim_C4_amended_postorder gAdd pAll 5 (fun n => n)
      (by decide) (by decide) (by decide) (by decide)⟩

/-- Claim C5: on a well-formed self-rooted graph, one traversal call
evaluates the visitor exactly once on each distinct visited node — never
zero times for a reachable node, never twice for the same node: the ghost
trace of visitor arguments is duplicate-free and lists exactly the
reachable nodes. -/
theorem claim_C5_predicate_evaluated_once (g : Graph) (p : Nat → Bool)
    (start : Nat) (hwf : g.wf = true) (hsr : g.selfRooted = true)
    (hs : start < g.size) :
    ∃ st2, visitFull g p start = some st2 ∧ st2.calls.Nodup ∧
      ∀ m, m ∈ st2.calls ↔ Reach g start m := by
  obtain ⟨st2, h⟩ := visitFull_isSome g p start hwf hs
  obtain ⟨hTI, hc, _⟩ := visitFull_trace g p start st2 hwf hsr hs h
  exact ⟨st2, h, hTI.2.1,
    fun m => (hc m).trans (visitFull_visited_iff g p start st2 h m)⟩

/-- Witness for C5 on the `Add(MatMul(X, W), B)` graph. -/
theorem claim_C5_witness :
    gAdd.wf = true ∧ gAdd.selfRooted = true ∧ 5 < gAdd.size ∧
      (∃ st2, visitFull gAdd pAll 5 = some st2 ∧ st2.calls.Nodup ∧
        ∀ m, m ∈ st2.calls ↔ Reach gAdd 5 m) :=
  ⟨by decide, by decide, by decide,
    claim_C5_predicate_evaluated_once gAdd pAll 5 (by decide) (by decide) (by decide)⟩

/-- Claim C6 (counterexample to the post-order part as stated): in the
cyclic two-node graph, every node is named `"N"`; the search from the
output node `1` returns `[0, 1]`, in which the matching input `1` of the
matching operator `0` does not appear strictly before `0`, so the returned
sequence is not in post-order. -/
theorem claim_C6_counterexample :
    find_nodes_by_name gCyc 1 "N" = some [0, 1] ∧
      gCyc.name 0 = "N" ∧ gCyc.name 1 = "N" ∧
      gCyc.attrs 0 = Attrs.func 0 ∧ (1 : Nat) ∈ gCyc.inputs 0 ∧
      ¬ List.Sublist [1, 0] [0, 1] := by decide

/-- Claim C6, amended: `find_nodes_by_name` returns exactly the reachable
nodes whose name equals the given name, each once; and on acyclic graphs
(certified by a rank function, exactly as in the amended C4 — on cyclic
graphs the order clause fails, see the counterexample) every matching
operator appears strictly after each of its matching inputs. -/
theorem claim_C6_find_nodes_by_name (g : Graph) (start : Nat) (nm : String)
    (hwf : g.wf = true) (hsr : g.selfRooted = true) (hs : start < g.size) :
    ∃ l, find_nodes_by_name g start nm = some l ∧ l.Nodup ∧
      (∀ m, m ∈ l ↔ Reach g start m ∧ g.name m = nm) ∧
      ∀ rank, rankedAcyclic g rank = true →
        ∀ N rN, Reach g start N → g.attrs N = Attrs.func rN →
          g.name N = nm → ∀ c ∈ g.inputs rN, g.name c = nm →
            List.Sublist [c, N] l := by
  obtain ⟨st2, h⟩ := visitFull_isSome g (fun x => g.name x == nm) start hwf hs
  obtain ⟨hTI, _, ha⟩ := visitFull_trace g _ start st2 hwf hsr hs h
  refine ⟨st2.accum, ?_, hTI.2.2.2, fun m => ?_, ?_⟩
  · rw [find_nodes_by_name, visit, h]
    rfl
  · rw [ha m, visitFull_visited_iff g _ start st2 h m, beq_iff_eq]
  · intro rank hra N rN hreach hattr hN c hc hcName
    exact visitFull_postorder g _ start rank st2 hwf hsr hra hs h N rN hreach
      hattr (by simp [hN]) c hc (by simp [hcName])

/-- Witness for C6: searching the `Add(MatMul(X, W), B)` graph for
`"MatMul"`. -/
theorem claim_C6_witness :
    gAdd.wf = true ∧ gAdd.selfRooted = true ∧ 5 < gAdd.size ∧
      (∃ l, find_nodes_by_name gAdd 5 "MatMul" = some l ∧ l.Nodup ∧
        (∀ m, m ∈ l ↔ Reach gAdd 5 m ∧ gAdd.name m = "MatMul") ∧
        ∀ rank, rankedAcyclic gAdd rank = true →
          ∀ N rN, Reach gAdd 5 N → gAdd.attrs N = Attrs.func rN →
            gAdd.name N = "MatMul" →
            ∀ c ∈ gAdd.inputs rN, gAdd.name c = "MatMul" →
              List.Sublist [c, N] l) :=
  ⟨by decide, by decide, by decide,
    claim_C6_find_nodes_by_name gAdd 5 "MatMul" (by decide) (by decide) (by decide)⟩

/-- Claim C9: when the argument node exposes `root_function`, the object
the visitor receives (and the accumulator gets) is the resolved root `r`,
appended at the call's completion — not the original node `n`; the visited
set records the original `n`, so `r` itself lands in the visited set only
if it was already there, equals `n`, or is reached again through the
recursion into the root's inputs. -/
theorem claim_C9_resolved_root_recorded (g : Graph) (p : Nat → Bool)
    (fuel n r : Nat) (st st2 : St) (hattr : g.attrs n = Attrs.func r)
    (hv : n ∉ st.visited) (h : dfs_walk g p (fuel + 1) n st = some st2) :
    n ∈ st2.visited ∧
      (∃ pre, st2.calls = st.calls ++ pre ++ [r]) ∧
      (p r = true → ∃ pre, st2.accum = st.accum ++ pre ++ [r]) ∧
      (r ∈ st2.visited → r ∈ st.visited ∨ r = n ∨
        ∃ c ∈ g.inputs r, Reach g c r) := by
  rw [dfs_walk, if_neg hv, hattr, Option.map_eq_some'] at h
  obtain ⟨st3, h3, rfl⟩ := h
  have hmono := dfsList_mono (dfs_mono g p fuel) _ _ _ h3
  refine ⟨?_, ?_, ?_, ?_⟩
  · simp only [record]
    exact hmono.1 (by simp [enter])
  · obtain ⟨cs, hcs⟩ := hmono.2.2.1
    exact ⟨cs, by simp [record, hcs, enter]⟩
  · intro hp
    obtain ⟨as, has⟩ := hmono.2.1
    exact ⟨as, by simp [record, hp, has, enter]⟩
  · intro hr
    have hr3 : r ∈ st3.visited := by simpa [record] using hr
    rcases dfsList_sound (dfs_mono g p fuel)
        (fun c s s2 => dfs_sound g p fuel c s s2) _ _ _ h3 r hr3 with
      h1 | ⟨c, hc, hrr⟩
    · simp only [enter, Finset.mem_insert] at h1
      rcases h1 with rfl | h1
      · exact Or.inr (Or.inl rfl)
      · exact Or.inl h1
    · exact Or.inr (Or.inr ⟨c, hc, hrr⟩)

/-- Witness for C9 on the composite graph: starting from the composite node
`0` whose root is `1`, the visitor trace is `[1]` (the resolved root), the
accumulator is `[1]`, and the visited set is `{0}` — the resolved root is
not in it. -/
theorem claim_C9_witness :
    gComp.attrs 0 = Attrs.func 1 ∧ (0 : Nat) ∉ initSt.visited ∧
      ((0 : Nat) ∈ (⟨[1], {0}, [1], [0]⟩ : St).visited ∧
        (∃ pre, (⟨[1], {0}, [1], [0]⟩ : St).calls = initSt.calls ++ pre ++ [1]) ∧
        (pAll 1 = true →
          ∃ pre, (⟨[1], {0}, [1], [0]⟩ : St).accum = initSt.accum ++ pre ++ [1]) ∧
        ((1 : Nat) ∈ (⟨[1], {0}, [1], [0]⟩ : St).visited →
          (1 : Nat) ∈ initSt.visited ∨ 1 = 0 ∨
            ∃ c ∈ gComp.inputs 1, Reach gComp c 1)) :=
  ⟨by decide, by decide,
    claim_C9_resolved_root_recorded gComp pAll 2 0 1 initSt
      ⟨[1], {0}, [1], [0]⟩ (by decide) (by decide) (by decide)⟩

/-! ### The text accumulated by `output_function_graph` -/

/-- One line per processed function node, in processing order: the node's
`op_name(child_uid, …) -> output_uid` record. -/
def funcLines (g : Graph) (l : List Nat) : List (List Char) :=
  l.filterMap fun n =>
    match g.attrs n with
    | Attrs.func r => some (lineOf g r)
    | _ => none

/-- The lines of `funcLines`, each terminated by `'\n'`, concatenated. -/
def joinLines (g : Graph) (l : List Nat) : List Char :=
  ((funcLines g l).map (fun s => s ++ ['\n'])).flatten

/-- The loop appends exactly one newline-terminated line per processed
function node. -/
lemma outLoop_delta (g : Graph) :
    ∀ fuel stack visited model trace res,
      outLoop g fuel stack visited model trace = some res →
      ∃ dt, res.2 = trace ++ dt ∧ res.1 = model ++ joinLines g dt := by
  intro fuel
  induction fuel with
  | zero => intro stack visited model trace res h; simp [outLoop] at h
  | succ fuel ih =>
      intro stack visited model trace res h
      cases stack with
      | nil =>
          rw [outLoop] at h
          cases h
          exact ⟨[], by simp, by simp [joinLines, funcLines]⟩
      | cons node rest =>
          rw [outLoop] at h
          by_cases hv : node ∈ visited
          · rw [if_pos hv] at h
            exact ih _ _ _ _ _ h
          · rw [if_neg hv] at h
            cases hattr : g.attrs node with
            | func r =>
                rw [hattr] at h
                obtain ⟨dt', ht', hm'⟩ := ih _ _ _ _ _ h
                refine ⟨node :: dt', by simp [ht'], ?_⟩
                rw [hm']
                simp [joinLines, funcLines, hattr]
            | outVar b o =>
                cases b with
                | true =>
                    rw [hattr] at h
                    obtain ⟨dt', ht', hm'⟩ := ih _ _ _ _ _ h
                    refine ⟨node :: dt', by simp [ht'], ?_⟩
                    rw [hm']
                    simp [joinLines, funcLines, hattr]
                | false =>
                    rw [hattr] at h
                    obtain ⟨dt', ht', hm'⟩ := ih _ _ _ _ _ h
                    refine ⟨node :: dt', by simp [ht'], ?_⟩
                    rw [hm']
                    simp [joinLines, funcLines, hattr]
            | leaf =>
                rw [hattr] at h
                obtain ⟨dt', ht', hm'⟩ := ih _ _ _ _ _ h
                refine ⟨node :: dt', by simp [ht'], ?_⟩
                rw [hm']
                simp [joinLines, funcLines, hattr]

lemma intercalate_cons_of_ne_nil (x : Char) (a : List Char)
    (l : List (List Char)) (hl : l ≠ []) :
    List.intercalate [x] (a :: l) = a ++ [x] ++ List.intercalate [x] l := by
  cases l with
  | nil => exact absurd rfl hl
  | cons b t => simp [List.intercalate]

/-- Concatenating newline-terminated lines is `intercalate` over the lines
followed by one empty chunk (produced by the final newline). -/
lemma flatten_newline_eq_intercalate (x : Char) :
    ∀ L : List (List Char),
      (L.map (fun s => s ++ [x])).flatten = List.intercalate [x] (L ++ [[]]) := by
  intro L
  induction L with
  | nil => rfl
  | cons a L ih =>
      rw [List.map_cons, List.flatten_cons, ih, List.cons_append,
        intercalate_cons_of_ne_nil x a (L ++ [[]]) (by simp)]

/-- Claim C8: whenever the loop of `output_function_graph` completes, the
accumulated text splits at newlines into exactly one
`op_name(child_uid, …) -> output_uid` record (`lineOf`, children joined by
`", "`, output uid the operator's first output) per processed operator, in
processing order — and the returned string is those lines joined in
reverse order (the leading empty chunk comes from the final newline of the
accumulated text), emitted as the call's `ret` event. -/
theorem claim_C8_reverse_edge_list (g : Graph) (start fuel : Nat)
    (model : List Char) (trace : List Nat) (hwf : g.wf = true)
    (hrun : outLoop g fuel [start] ∅ [] [] = some (model, trace))
    (hclean : ∀ l ∈ funcLines g trace, '\n' ∉ l) :
    model.splitOn '\n' = funcLines g trace ++ [[]] ∧
      retString model =
        List.intercalate ['\n'] ([] :: (funcLines g trace).reverse) ∧
      Ev.ret (retString model) ∈
        output_function_graph g start none none true fuel := by
  obtain ⟨dt, hdt, hm⟩ := outLoop_delta g fuel [start] ∅ [] [] (model, trace) hrun
  simp only [List.nil_append] at hdt hm
  subst hdt
  have hmodel : model = List.intercalate ['\n'] (funcLines g trace ++ [[]]) := by
    rw [hm, joinLines, flatten_newline_eq_intercalate]
  have hsplit : model.splitOn '\n' = funcLines g trace ++ [[]] := by
    rw [hmodel]
    refine List.splitOn_intercalate (funcLines g trace ++ [[]]) '\n' ?_ (by simp)
    intro l hl
    rcases List.mem_append.mp hl with hl1 | hl2
    · exact hclean l hl1
    · rw [List.mem_singleton] at hl2
      subst hl2
      exact List.not_mem_nil _
  refine ⟨hsplit, ?_, ?_⟩
  · rw [retString, hsplit]
    simp
  · simp [output_function_graph, outEvents, hrun]

/-- Witness for C8 on the `Add(MatMul(X, W), B)` graph: the loop completes
with text `"Add(m0, B0) -> Add0\nMatMul(X0, W0) -> m0\n"` and the returned
string lists the two records in reverse order. -/
theorem claim_C8_witness :
    gAdd.wf = true ∧
      outLoop gAdd 10 [5] ∅ [] [] =
        some (("Add(m0, B0) -> Add0\nMatMul(X0, W0) -> m0\n").data,
          [5, 4, 3, 2, 1, 0]) ∧
      (∀ l ∈ funcLines gAdd [5, 4, 3, 2, 1, 0], '\n' ∉ l) ∧
      (("Add(m0, B0) -> Add0\nMatMul(X0, W0) -> m0\n").data.splitOn '\n' =
          funcLines gAdd [5, 4, 3, 2, 1, 0] ++ [[]] ∧
        retString ("Add(m0, B0) -> Add0\nMatMul(X0, W0) -> m0\n").data =
          List.intercalate ['\n']
            ([] :: (funcLines gAdd [5, 4, 3, 2, 1, 0]).reverse) ∧
        Ev.ret (retString ("Add(m0, B0) -> Add0\nMatMul(X0, W0) -> m0\n").data) ∈
          output_function_graph gAdd 5 none none true 10) :=
  ⟨by decide, by decide, by decide,
    claim_C8_reverse_edge_list gAdd 5 10
      ("Add(m0, B0) -> Add0\nMatMul(X0, W0) -> m0\n").data
      [5, 4, 3, 2, 1, 0] (by decide) (by decide) (by decide)⟩

/-! ### Helper lemmas about `output_function_graph` events -/

/-- The traversal-and-output phase never raises `ImportError`. -/
lemma raise_not_mem_outEvents (g : Graph) (start fuel : Nat)
    (dp pp : Option String) :
    Ev.raiseImportError ∉ outEvents g start fuel dp pp := by
  unfold outEvents
  cases houtLoop : outLoop g fuel [start] ∅ [] [] with
  | none => simp
  | some mt =>
      obtain ⟨model, trace⟩ := mt
      cases dp <;> cases pp <;> simp

/-! ### Claim theorems with concrete evaluations -/

/-- Claim C1 (code_bug evidence): in the diamond graph, the iterative
export traversal of `output_function_graph` pops the shared output node
`O = 1` past its (dead) visited check twice, not once: `visited.add` is
never called in the source loop.  The whole processed trace is
`[6, 5, 4, 1, 0, 3, 2, 1, 0]`: node `O = 1` and its owner `0` are both
processed twice, while the start `R = 6` is processed once. -/
theorem claim_C1_O_processed_twice :
    ((outLoop gDiamond 30 [6] ∅ [] []).map
        fun mt => (mt.2, mt.2.count 1, mt.2.count 6)) =
      some ([6, 5, 4, 1, 0, 3, 2, 1, 0], 2, 1) := by decide

/-- Claim C2 (code_bug evidence): `build_graph` raises
`NameError("dfs_walk_plot")` on the first operator node that has an input,
and `png_graph` raises it on every call, because the recursive call target
`dfs_walk_plot` is defined nowhere in the module. -/
theorem claim_C2_raises_NameError :
    build_graph gOneInput pAll 0 initSt [] =
        Except.error (PyErr.nameError "dfs_walk_plot") ∧
      png_graph gOneInput 0 "netgraph.png" =
        Except.error (PyErr.nameError "dfs_walk_plot") := by
  exact ⟨rfl, rfl⟩

/-- Claim C7: if a DOT or PNG path is given and `pydot_ng` is unavailable,
`output_function_graph` fails with `ImportError` as its only event — before
any traversal step and before any file write; with no export path given,
no `ImportError` is ever raised, whether or not the backend is available. -/
theorem claim_C7_import_error_first (g : Graph) (start fuel : Nat)
    (dp pp : Option String) (avail : Bool)
    (h : (dp.isSome || pp.isSome) = true) :
    (avail = false →
        output_function_graph g start dp pp avail fuel = [Ev.raiseImportError]) ∧
      Ev.raiseImportError ∉ output_function_graph g start none none avail fuel := by
  constructor
  · intro ha
    subst ha
    simp [output_function_graph, h]
  · have hne : ((none : Option String).isSome || (none : Option String).isSome) = false := rfl
    simp only [output_function_graph, hne, Bool.false_eq_true, if_false]
    exact raise_not_mem_outEvents g start fuel none none

/-- Witness for C7 at a concrete call: a DOT path is requested, the backend
is missing, and the call's only event is the raised `ImportError`. -/
theorem claim_C7_witness :
    (((some "net.dot" : Option String).isSome ||
        (none : Option String).isSome) = true) ∧
      ((false = false →
          output_function_graph gAdd 5 (some "net.dot") none false 7 =
            [Ev.raiseImportError]) ∧
        Ev.raiseImportError ∉ output_function_graph gAdd 5 none none false 7) :=
  ⟨by decide, claim_C7_import_error_first gAdd 5 7 (some "net.dot") none false (by decide)⟩

/-- Claim C10: quantization bits below 32 select the quantized factory with
communicator `(True, True, bits)`; 32 or more (including values above 32)
select the plain factory; both forward the async flag and the warm-start
sample count unchanged. -/
theorem claim_C10_quantized_path_selection (ua : Bool) (bits start_count : Int) :
    (bits < 32 →
        data_parallel_distributed_trainer ua bits start_count =
          TrainerSpec.quantized ⟨true, true, bits⟩ ua start_count) ∧
      (32 ≤ bits →
        data_parallel_distributed_trainer ua bits start_count =
          TrainerSpec.plain ua start_count) := by
  constructor
  · intro h
    simp [data_parallel_distributed_trainer, h]
  · intro h
    simp [data_parallel_distributed_trainer, not_lt.mpr h]

/-- Witness for C10 at `bits = 1` (quantized) and `bits = 64` (plain). -/
theorem claim_C10_witness :
    data_parallel_distributed_trainer true 1 100 =
        TrainerSpec.quantized ⟨true, true, 1⟩ true 100 ∧
      data_parallel_distributed_trainer false 64 0 =
        TrainerSpec.plain false 0 :=
  ⟨(claim_C10_quantized_path_selection true 1 100).1 (by decide),
   (claim_C10_quantized_path_selection false 64 0).2 (by decide)⟩

/-- Claim C4 (counterexample): in the cyclic two-node graph, the operator
node `0` has the single input `1`, both satisfy the always-true predicate,
and the traversal from `1` returns `[0, 1]`, in which the input `1` does
not appear strictly before its operator `0`. -/
theorem claim_C4_counterexample :
    visit gCyc pAll 1 = some [0, 1] ∧
      gCyc.attrs 0 = Attrs.func 0 ∧ (1 : Nat) ∈ gCyc.inputs 0 ∧
      pAll 1 = true ∧ pAll 0 = true ∧
      ¬ List.Sublist [1, 0] [0, 1] := by decide

end CNTK
